import Mathlib

/-!
Verification of the Engram memory-graph core (`src/core/models.py`,
`src/core/storage.py`, `src/query/traversal.py`, `engram/ingest/dedup.py`)
against its specification.

The SQLite-backed store is modelled as an in-memory pair of row lists kept in
insertion (rowid) order.  Machine details that matter to the claims are kept:

* UUIDs are opaque keys, modelled as `Nat`.
* `when_ts` is stored as an ISO-8601 string whose lexicographic order agrees
  with the chronological order of naive datetimes; timestamps are therefore
  modelled as `Int` with integer comparison.  `NULL` timestamps are `none`;
  in SQLite a comparison with `NULL` is not true, so rows with a `NULL`
  `when_ts` fail any `when_ts >= ?` / `when_ts <= ?` filter, and `ORDER BY
  when_ts DESC` puts `NULL` last (NULL sorts below every value).
* Python floats (binary64) are modelled as `ℚ`: every finite double is an
  exact rational and the code performs no float arithmetic on them except the
  `struct.pack('<f')` narrowing of embedding components to binary32, which is
  modelled exactly by `roundF32` below.
* The JSON round-trips of `who`/`tags`/`artifacts`/`metadata` are exact and
  are modelled as the identity.
* `initialize` never executes `PRAGMA foreign_keys=ON`, and SQLite keeps
  foreign-key enforcement off by default, so the `ON DELETE CASCADE` clauses
  declared on `edges` are *not* acted upon: `DELETE FROM nodes` removes node
  rows only.  `delete_node` is modelled accordingly.
-/

set_option maxRecDepth 100000

namespace Engram

/-- `NodeType` from `src/core/models.py`. -/
inductive NodeType
  | event
  | decision
  | artifact
  | conversation
  | insight
  | person
  | project
  | task
deriving DecidableEq, Repr

/-- `EdgeType` from `src/core/models.py`, in declaration order. -/
inductive EdgeType
  | caused_by
  | led_to
  | supersedes
  | preceded_by
  | relates_to
  | contradicts
  | supports
  | mentions
  | part_of
  | derived_from
deriving DecidableEq, Repr

/-- `list(EdgeType)`: the members of the enum in declaration order. -/
def EdgeType.all : List EdgeType :=
  [.caused_by, .led_to, .supersedes, .preceded_by, .relates_to,
   .contradicts, .supports, .mentions, .part_of, .derived_from]

/-- `MemoryNode` from `src/core/models.py` / the `nodes` table row it is stored
as.  `where` is a Lean keyword, so the field uses the column name `where_ctx`. -/
structure MemoryNode where
  id : Nat
  type : NodeType
  what : String
  when : Option Int
  where_ctx : Option String
  who : List String
  why : Option String
  how : Option String
  tags : List String
  artifacts : List String
  embedding : Option (List ℚ)
  confidence : ℚ
  source : Option String
  created_at : Int
  updated_at : Int
deriving DecidableEq, Repr

/-- `Edge` from `src/core/models.py`. -/
structure Edge where
  id : Nat
  source_id : Nat
  target_id : Nat
  type : EdgeType
  weight : ℚ
  metadata : List (String × String)
  created_at : Int
deriving DecidableEq, Repr

/-- `QueryResult` from `src/core/models.py`. -/
structure QueryResult where
  node : MemoryNode
  score : ℚ
  path : List Nat
  hop_count : Nat
deriving DecidableEq, Repr

/-- The `direction` string argument of `get_edges`/`traverse_bfs`. -/
inductive Direction
  | outgoing
  | incoming
  | both
deriving DecidableEq, Repr

/-- The persisted state of one `SQLiteBackend`: the `nodes` and `edges` tables,
each in rowid (insertion) order. -/
structure Storage where
  nodes : List MemoryNode
  edges : List Edge
deriving DecidableEq, Repr

/-- The `nodes` table's `PRIMARY KEY` constraint: node rows have distinct ids.
Every store reachable through `add_node` satisfies it. -/
def Storage.UniqueNodeIds (s : Storage) : Prop :=
  s.nodes.Pairwise (fun a b => a.id ≠ b.id)

instance (s : Storage) : Decidable s.UniqueNodeIds := by
  unfold Storage.UniqueNodeIds; infer_instance

/-! ### binary32 narrowing (`struct.pack('f')` in `_serialize_embedding`)

`_serialize_embedding` packs each Python float (a binary64 value, an exact
rational) into 4 bytes with `struct.pack`, which rounds it to the nearest
binary32 value (round-to-nearest, ties-to-even) and raises `OverflowError` if
the result falls outside the finite binary32 range.  `_deserialize_embedding`
widens back to binary64, which is exact.  `roundF32` computes that binary32
rounding on `ℚ` by plain integer arithmetic. -/

/-- Floor of `log2 m` for `m ≥ 1`, by structural recursion on a fuel bound. -/
def natLog2Aux : Nat → Nat → Nat
  | 0, _ => 0
  | fuel+1, m => if m ≥ 2 then natLog2Aux fuel (m / 2) + 1 else 0

/-- Floor of `log2 m` for `m ≥ 1` (0 for `m = 0`). -/
def natLog2 (m : Nat) : Nat :=
  natLog2Aux m m

/-- Decides `2 ^ e ≤ a / b` for naturals `a b ≥ 1` and `e : ℤ`. -/
def dyLe (e : Int) (a b : Nat) : Bool :=
  if 0 ≤ e then 2 ^ e.toNat * b ≤ a else b ≤ a * 2 ^ (-e).toNat

/-- Floor of `log2 (a / b)` for naturals `a b ≥ 1`. -/
def ratLog2 (a b : Nat) : Int :=
  let e0 : Int := (natLog2 a : Int) - (natLog2 b : Int)
  if dyLe e0 a b then e0 else e0 - 1

/-- Rounds `p / q` to the nearest natural, ties to even (`q ≥ 1`). -/
def roundDiv (p q : Nat) : Nat :=
  let d := p / q
  let r := p % q
  if 2 * r < q then d
  else if q < 2 * r then d + 1
  else if d % 2 = 0 then d else d + 1

/-- The binary32 value nearest `q` (round-to-nearest, ties-to-even, with
subnormals; the exponent of the least significand bit is clamped at `-149`).
Overflow past the finite range is handled by `serializeF32`. -/
def roundF32 (q : ℚ) : ℚ :=
  if q = 0 then 0
  else
    let a := q.num.natAbs
    let b := q.den
    let e := max (ratLog2 a b) (-126)
    let s : Int := 23 - e
    let n : Nat := if 0 ≤ s then roundDiv (a * 2 ^ s.toNat) b else roundDiv a (b * 2 ^ (-s).toNat)
    let v : ℚ := if 0 ≤ s then (n : ℚ) / 2 ^ s.toNat else (n : ℚ) * 2 ^ (-s).toNat
    if q < 0 then -v else v

/-- One embedding component through `struct.pack('f')`: the binary32-rounded
value, or `none` (an `OverflowError`) when it falls outside the finite
binary32 range. -/
def serializeF32 (c : ℚ) : Option ℚ :=
  let v := roundF32 c
  if |v| < 2 ^ (128 : Nat) then some v else none

/-- The embedding as stored by `_serialize_embedding` and read back by
`_deserialize_embedding` (widening binary32 → binary64 is exact). -/
def storeEmbedding : Option (List ℚ) → Option (Option (List ℚ))
  | none => some none
  | some l => (l.mapM serializeF32).map some

/-- The row `add_node` writes for a node: every field round-trips through its
column exactly, except the embedding, which is narrowed to binary32.  `none`
models the `OverflowError` raised while packing. -/
def storeNode (n : MemoryNode) : Option MemoryNode :=
  (storeEmbedding n.embedding).map (fun e => { n with embedding := e })

/-! ### `SQLiteBackend` operations (`src/core/storage.py`) -/

/-- `get_node`: point lookup by primary key (`SELECT * FROM nodes WHERE id = ?`,
first row). -/
def get_node (s : Storage) (node_id : Nat) : Option MemoryNode :=
  s.nodes.find? (fun n => n.id == node_id)

/-- `add_node`: `INSERT INTO nodes ...`; a duplicate primary key raises
`IntegrityError` (`none`), as does an embedding overflow in
`_serialize_embedding`.  Returns the updated store and `node.id`. -/
def add_node (s : Storage) (n : MemoryNode) : Option (Storage × Nat) :=
  if s.nodes.any (fun m => m.id == n.id) then none
  else (storeNode n).map (fun sn => ({ s with nodes := s.nodes ++ [sn] }, n.id))

/-- `add_edge`: `INSERT INTO edges ...` (referential integrity is not checked:
the pragma that would enforce the foreign keys is never enabled). -/
def add_edge (s : Storage) (e : Edge) : Option (Storage × Nat) :=
  if s.edges.any (fun f => f.id == e.id) then none
  else some ({ s with edges := s.edges ++ [e] }, e.id)

/-- `delete_node`: `DELETE FROM nodes WHERE id = ?`; returns `rowcount > 0`.
The connection never runs `PRAGMA foreign_keys=ON`, so SQLite does not act on
the `ON DELETE CASCADE` declared on `edges`: edge rows survive. -/
def delete_node (s : Storage) (node_id : Nat) : Storage × Bool :=
  ({ s with nodes := s.nodes.filter (fun n => n.id != node_id) },
   s.nodes.any (fun n => n.id == node_id))

/-- The `WHERE` clause built by `get_edges`.  With `direction="both"` and a
type filter the code produces `source_id = ? OR target_id = ? AND type = ?`,
and SQL's `AND` binds tighter than `OR`, so the type condition applies only
to the incoming half. -/
def edgePred (node_id : Nat) (direction : Direction) (edge_type : Option EdgeType)
    (e : Edge) : Bool :=
  match direction, edge_type with
  | .outgoing, none => e.source_id == node_id
  | .outgoing, some t => e.source_id == node_id && e.type == t
  | .incoming, none => e.target_id == node_id
  | .incoming, some t => e.target_id == node_id && e.type == t
  | .both, none => e.source_id == node_id || e.target_id == node_id
  | .both, some t => e.source_id == node_id || (e.target_id == node_id && e.type == t)

/-- `get_edges`: edges where the node participates as source / target / either,
optionally narrowed by `EdgeType`; rowid (insertion) order. -/
def get_edges (s : Storage) (node_id : Nat) (direction : Direction)
    (edge_type : Option EdgeType) : List Edge :=
  s.edges.filter (edgePred node_id direction edge_type)

/-- `x ≤ y` on `when_ts` columns with SQLite's `NULL` ordering: `NULL` sorts
below every value. -/
def owLe (x y : Option Int) : Bool :=
  match x, y with
  | none, _ => true
  | some _, none => false
  | some a, some b => a ≤ b

/-- Insert into a list that is descending on `when` (stable). -/
def insertDescWhen (x : MemoryNode) : List MemoryNode → List MemoryNode
  | [] => [x]
  | y :: ys => if owLe y.when x.when then x :: y :: ys else y :: insertDescWhen x ys

/-- `ORDER BY when_ts DESC`: sort rows by `when` descending (`NULL` last). -/
def sortDescWhen : List MemoryNode → List MemoryNode
  | [] => []
  | x :: xs => insertDescWhen x (sortDescWhen xs)

/-- Re-reading a selected row through `get_node` (`self.get_node(UUID(row['id']))`).
The id comes from a stored row, so the lookup always succeeds; the default is
never used. -/
def refetch (s : Storage) (r : MemoryNode) : MemoryNode :=
  (get_node s r.id).getD r

/-- Does a row pass the `when_ts >= ? / when_ts <= ?` filters of
`query_by_time`?  A missing bound adds no conjunct; a `NULL` `when_ts`
fails any present bound (SQL three-valued comparison). -/
def timeFilter (since until_ : Option Int) (n : MemoryNode) : Bool :=
  (match since with
   | none => true
   | some t => match n.when with
     | none => false
     | some w => t ≤ w) &&
  (match until_ with
   | none => true
   | some t => match n.when with
     | none => false
     | some w => w ≤ t)

/-- `query_by_time`: filter on the optional bounds, `ORDER BY when_ts DESC`,
`LIMIT ?`, then re-read each selected id through `get_node`. -/
def query_by_time (s : Storage) (since until_ : Option Int) (limit : Nat) :
    List MemoryNode :=
  (((sortDescWhen (s.nodes.filter (timeFilter since until_))).take limit).map (refetch s))

/-- The tag test of `query_by_tags`: `search_tags.issubset(node_tags)` when
`match_all`, `search_tags & node_tags` nonempty otherwise. -/
def tagMatch (tags : List String) (match_all : Bool) (node_tags : List String) : Bool :=
  if match_all then tags.all (fun t => node_tags.contains t)
  else tags.any (fun t => node_tags.contains t)

/-- `query_by_tags`: over-fetch the first `limit * 10` rows, keep matching rows
until `limit` are collected, then re-read each id through `get_node`. -/
def query_by_tags (s : Storage) (tags : List String) (match_all : Bool)
    (limit : Nat) : List MemoryNode :=
  ((((s.nodes.take (limit * 10)).filter
      (fun n => tagMatch tags match_all n.tags)).take limit).map (refetch s))

/-! ### `MemoryTraverser` (`src/query/traversal.py`)

Both loops run off a FIFO queue with a visited set; they terminate because a
node is expanded at most once (only when first visited), so the number of
dequeues is bounded by one plus the number of enqueues, which is bounded by
the total edge degree `2 * |edges|`.  The loops are written with that fuel;
every property proved below holds for every fuel value, and the concrete
executions in the witnesses carry enough fuel to run to completion. -/

/-- Upper bound on the number of iterations of the `find_path` loop: one plus
one enqueue per incident edge end of each (at most once) expanded node. -/
def loopFuel (s : Storage) : Nat :=
  2 * s.edges.length + 2

/-- Python's `edge_types or list(EdgeType)`: `None` and the empty list are
both falsy, so either falls back to every edge type. -/
def orAllTypes : Option (List EdgeType) → List EdgeType
  | none => EdgeType.all
  | some [] => EdgeType.all
  | some ts => ts

/-- Upper bound on the number of iterations of the `traverse_bfs` loop: each
node expands at most once, fetching edges once per requested type, and each
fetch returns at most the node's full degree. -/
def bfsFuel (s : Storage) (edge_types : Option (List EdgeType)) : Nat :=
  2 * (orAllTypes edge_types).length * s.edges.length + 2

/-- The `while queue:` loop of `traverse_bfs`.  Queue entries are
`(node_id, hop_count, path)`. -/
def bfsAux (s : Storage) (max_hops : Nat) (edge_types : Option (List EdgeType))
    (direction : Direction) (include_start : Bool) (start_id : Nat) :
    Nat → List (Nat × Nat × List Nat) → List Nat → List QueryResult → List QueryResult
  | 0, _, _, results => results
  | _+1, [], _, results => results
  | fuel+1, (current_id, hop_count, path) :: queue, visited, results =>
    if visited.contains current_id then
      bfsAux s max_hops edge_types direction include_start start_id fuel queue visited results
    else
      let visited1 := current_id :: visited
      match get_node s current_id with
      | none =>
        bfsAux s max_hops edge_types direction include_start start_id fuel queue visited1 results
      | some node =>
        let results1 :=
          if include_start || current_id != start_id then
            results ++ [⟨node, 1 / (hop_count + 1 : ℚ), path, hop_count⟩]
          else results
        if max_hops ≤ hop_count then
          bfsAux s max_hops edge_types direction include_start start_id fuel queue visited1 results1
        else
          let newEntries :=
            (orAllTypes edge_types).flatMap (fun t =>
              (get_edges s current_id direction (some t)).filterMap (fun e =>
                let next_id := if e.source_id == current_id then e.target_id else e.source_id
                if visited1.contains next_id then none
                else some (next_id, hop_count + 1, path ++ [next_id])))
          bfsAux s max_hops edge_types direction include_start start_id fuel
            (queue ++ newEntries) visited1 results1

/-- `traverse_bfs`: breadth-first traversal from `start_id`.  In the source
`max_hops` defaults to 2, `edge_types` to `None`, `direction` to `"both"`,
`include_start` to `True`. -/
def traverse_bfs (s : Storage) (start_id : Nat) (max_hops : Nat)
    (edge_types : Option (List EdgeType)) (direction : Direction)
    (include_start : Bool) : List QueryResult :=
  bfsAux s max_hops edge_types direction include_start start_id
    (bfsFuel s edge_types) [(start_id, 0, [start_id])] [] []

/-- The `for edge in edges:` loop body of `find_path`: either the full path to
`to_id` (the loop returns on the first edge whose far endpoint is `to_id`), or
the entries to enqueue, in edge order. -/
def scanEdges (current_id to_id : Nat) (path : List Nat) (visited : List Nat) :
    List Edge → Option (List Nat) × List (Nat × List Nat)
  | [] => (none, [])
  | e :: es =>
    let next_id := if e.source_id == current_id then e.target_id else e.source_id
    if next_id == to_id then (some (path ++ [next_id]), [])
    else
      let rest := scanEdges current_id to_id path visited es
      if visited.contains next_id then rest
      else (rest.1, (next_id, path ++ [next_id]) :: rest.2)

/-- The `while queue:` loop of `find_path`.  A dequeued entry whose path is
longer than `max_hops + 1` nodes is dropped before the visited check. -/
def findPathAux (s : Storage) (to_id : Nat) (max_hops : Nat) :
    Nat → List (Nat × List Nat) → List Nat → Option (List (Option MemoryNode))
  | 0, _, _ => none
  | _+1, [], _ => none
  | fuel+1, (current_id, path) :: queue, visited =>
    if max_hops + 1 < path.length then
      findPathAux s to_id max_hops fuel queue visited
    else if visited.contains current_id then
      findPathAux s to_id max_hops fuel queue visited
    else
      let visited1 := current_id :: visited
      match scanEdges current_id to_id path visited1 (get_edges s current_id Direction.both none) with
      | (some full_path, _) => some (full_path.map (get_node s))
      | (none, newEntries) =>
        findPathAux s to_id max_hops fuel (queue ++ newEntries) visited1

/-- `find_path`: shortest path between two nodes by BFS; `max_hops` defaults
to 6 in the source.  The returned list holds the `get_node` results of the
path's ids, exactly as the list comprehension in the source builds it. -/
def find_path (s : Storage) (from_id to_id : Nat) (max_hops : Nat) :
    Option (List (Option MemoryNode)) :=
  if from_id == to_id then
    match get_node s from_id with
    | some node => some [some node]
    | none => none
  else
    findPathAux s to_id max_hops (loopFuel s) [(from_id, [from_id])] []

/-- `get_context_window`: temporal context around a memory; `before` and
`after` default to 5 in the source.  Note: the newer half is taken from a
`when_ts DESC` query and is not reversed. -/
def get_context_window (s : Storage) (center_id : Nat) (before after : Nat) :
    List MemoryNode :=
  match get_node s center_id with
  | none => []
  | some center =>
    match center.when with
    | none => []
    | some w =>
      let before_nodes :=
        ((query_by_time s none (some w) (before + 1)).filter
          (fun n => n.id != center_id)).take before
      let after_nodes :=
        ((query_by_time s (some w) none (after + 1)).filter
          (fun n => n.id != center_id)).take after
      before_nodes.reverse ++ center :: after_nodes

/-! ### Deduplication (`engram/ingest/dedup.py`) -/

/-- ASCII-lowercased character list of a string: SQLite's `LIKE` is
case-insensitive for ASCII. -/
def lowerChars (t : String) : List Char :=
  t.toList.map Char.toLower

/-- Does the character list start with the pattern? -/
def startsWithSeq : List Char → List Char → Bool
  | [], _ => true
  | _ :: _, [] => false
  | a :: as_, b :: bs => a == b && startsWithSeq as_ bs

/-- Does the character list contain the pattern as a contiguous run? -/
def containsSeq (pat : List Char) : List Char → Bool
  | [] => startsWithSeq pat []
  | b :: bs => startsWithSeq pat (b :: bs) || containsSeq pat bs

/-- SQLite `column LIKE '%' || pat || '%'` on a text value (the hash patterns
contain no `%`/`_` wildcards): case-insensitive substring containment. -/
def likeContains (pat text : String) : Bool :=
  containsSeq (lowerChars pat) (lowerChars text)

/-- Does a node row match `source LIKE '%hash:{h}%'`?  A `NULL` `source` never
matches `LIKE`. -/
def carriesHash (h : String) (n : MemoryNode) : Bool :=
  match n.source with
  | none => false
  | some src => likeContains ("hash:" ++ h) src

/-- `check_duplicate`: first node row whose `source` matches
`LIKE '%hash:{h}%'`, if any (`fetchone`). -/
def check_duplicate (s : Storage) (h : String) : Option Nat :=
  (s.nodes.find? (carriesHash h)).map (fun n => n.id)

/-- Modelled from the spec: `engram.core.SQLiteBackend.add_node`, which
`dedup.py` calls.  `engram/core/models.py` and `engram/core/storage.py` are
not under `src/` (only `engram/core/__init__.py`, which re-exports them, is);
the spec gives this backend the same `nodes`-table insert contract as
`src.core`'s `SQLiteBackend`, so it is modelled by the same `add_node`. -/
def engram_add_node (s : Storage) (n : MemoryNode) : Option (Storage × Nat) :=
  add_node s n

/-- The `source` value written before inserting: Python's
`f"{node.source} hash:{v}"` when `node.source` is truthy (not `None`, not
empty), `f"hash:{v}"` otherwise. -/
def sourceWithHash (src : Option String) (h : String) : String :=
  let base := src.getD ("")
  if base = "" then "hash:" ++ h else base ++ " " ++ ("hash:" ++ h)

/-- `add_node_with_dedup`: returns `(store, node_id, was_new)`, or `none` when
the underlying insert raises.  Python's `if hash_value:` treats `None` and the
empty string alike. -/
def add_node_with_dedup (s : Storage) (n : MemoryNode) (hash_value : Option String) :
    Option (Storage × Nat × Bool) :=
  match hash_value with
  | none => (engram_add_node s n).map (fun p => (p.1, p.2, true))
  | some h =>
    if h = "" then (engram_add_node s n).map (fun p => (p.1, p.2, true))
    else
      match check_duplicate s h with
      | some existing => some (s, existing, false)
      | none =>
        let n1 := { n with source := some (sourceWithHash n.source h) }
        (engram_add_node s n1).map (fun p => (p.1, p.2, true))

/-! ### Concrete fixtures used by the witnesses and counterexamples -/

/-- A minimal node with the given id and `when` timestamp. -/
def exN (i : Nat) (w : Option Int) : MemoryNode :=
  ⟨i, .event, "n", w, none, [], none, none, [], [], none, 1, none, 0, 0⟩

/-- A minimal edge with the given id, endpoints and type. -/
def exE (i a b : Nat) (t : EdgeType) : Edge :=
  ⟨i, a, b, t, 1, [], 0⟩

/-- The chain A→B→C→D over `led_to` edges (A=1, B=2, C=3, D=4). -/
def chainStore : Storage :=
  ⟨[exN 1 (some 1), exN 2 (some 2), exN 3 (some 3), exN 4 (some 4)],
   [exE 10 1 2 .led_to, exE 11 2 3 .led_to, exE 12 3 4 .led_to]⟩

/-- Two nodes joined by one edge 1→2; fixture for the delete-cascade claim. -/
def delStore : Storage :=
  ⟨[exN 1 none, exN 2 none], [exE 10 1 2 .led_to]⟩

/-- Three nodes at times 10 < 20 < 30, no edges; fixture for the temporal
claims. -/
def ctxStore : Storage :=
  ⟨[exN 1 (some 10), exN 2 (some 20), exN 3 (some 30)], []⟩

/-! ### C1 — delete_node and the edge cascade -/

/-- C1: the spec says `delete_node(id)` removes the node and every edge
referencing it, so that `get_edges` on a previously connected neighbor returns
no edge mentioning `id`.  The code runs only `DELETE FROM nodes WHERE id = ?`
and never enables `PRAGMA foreign_keys`, so the `ON DELETE CASCADE` the schema
itself declares is ignored by SQLite: after `delete_node(1)` (which still
returns true and removes the node row), `get_edges(2)` still returns the edge
1→2.  This theorem evaluates the code at that failing input. -/
theorem C1_delete_node_leaves_dangling_edge :
    (delete_node delStore 1).2 = true ∧
    (delete_node delStore 1).1.nodes = [exN 2 none] ∧
    get_edges (delete_node delStore 1).1 2 Direction.both none = [exE 10 1 2 .led_to] ∧
    (exE 10 1 2 .led_to).source_id = 1 :=
  ⟨by with_unfolding_all rfl, by with_unfolding_all rfl,
   by with_unfolding_all rfl, rfl⟩

/-! ### C2 — find_path and max_hops -/

/-- C2 counterexample: the claim says `find_path(A, D, max_hops=2)` on the
chain A→B→C→D returns not-found and that every returned path has at most
`max_hops + 1` nodes.  In fact the call returns the full 4-node path: the
length check happens at dequeue time, but the target is detected while
expanding a surviving 3-node path, adding a 4th node. -/
theorem C2_counterexample :
    find_path chainStore 1 4 2 =
      some [some (exN 1 (some 1)), some (exN 2 (some 2)),
            some (exN 3 (some 3)), some (exN 4 (some 4))] := by
  with_unfolding_all rfl

/-- Any path returned by the edge-scan is one node longer than the dequeued
path it extends. -/
theorem scanEdges_some_length (c t : Nat) (p v : List Nat) :
    ∀ (es : List Edge) (out : List Nat),
      (scanEdges c t p v es).1 = some out → out.length = p.length + 1 := by
  intro es
  induction es with
  | nil => intro out h; simp [scanEdges] at h
  | cons e es ih =>
    intro out h
    simp only [scanEdges] at h
    by_cases hn : (if e.source_id == c then e.target_id else e.source_id) == t
    · simp only [hn, if_pos] at h
      cases h
      simp
    · simp only [hn] at h
      rw [if_neg (by simp [hn])] at h
      by_cases hv : v.contains (if e.source_id == c then e.target_id else e.source_id)
      · rw [if_pos hv] at h; exact ih out h
      · rw [if_neg hv] at h; exact ih out h

/-- Any path returned by the `find_path` loop has at most `max_hops + 2`
nodes: entries longer than `max_hops + 1` are pruned at dequeue, and a found
target adds one node to a surviving entry. -/
theorem findPathAux_length_le (s : Storage) (t k : Nat) :
    ∀ (fuel : Nat) (queue : List (Nat × List Nat)) (visited : List Nat)
      (out : List (Option MemoryNode)),
      findPathAux s t k fuel queue visited = some out → out.length ≤ k + 2 := by
  intro fuel
  induction fuel with
  | zero => intro queue visited out h; simp [findPathAux] at h
  | succ fuel ih =>
    intro queue visited out h
    match queue with
    | [] => simp [findPathAux] at h
    | (c, p) :: rest =>
      simp only [findPathAux] at h
      by_cases hp : k + 1 < p.length
      · rw [if_pos hp] at h; exact ih rest visited out h
      · rw [if_neg hp] at h
        by_cases hv : visited.contains c
        · rw [if_pos hv] at h; exact ih rest visited out h
        · rw [if_neg hv] at h
          rcases hscan : scanEdges c t p (c :: visited)
              (get_edges s c Direction.both none) with ⟨r, q⟩
          rw [hscan] at h
          match r with
          | some fp =>
            simp only at h
            cases h
            have hlen : fp.length = p.length + 1 :=
              scanEdges_some_length c t p (c :: visited) _ fp (by rw [hscan])
            have hple : p.length ≤ k + 1 := Nat.le_of_not_lt hp
            simp [hlen]
            omega
          | none =>
            simp only at h
            exact ih (rest ++ q) (c :: visited) out h

/-- C2 (amended): on the chain A→B→C→D, `find_path(A, D)` with the default
`max_hops = 6` returns `[A, B, C, D]`, and `find_path(A, D, max_hops=2)` also
returns `[A, B, C, D]` rather than not-found.  In general candidate paths
longer than `max_hops + 1` nodes are pruned at dequeue, but the target check
runs while extending a surviving path, so a returned path has at most
`max_hops + 2` nodes. -/
theorem C2_find_path_amended :
    find_path chainStore 1 4 6 =
      some [some (exN 1 (some 1)), some (exN 2 (some 2)),
            some (exN 3 (some 3)), some (exN 4 (some 4))] ∧
    find_path chainStore 1 4 2 =
      some [some (exN 1 (some 1)), some (exN 2 (some 2)),
            some (exN 3 (some 3)), some (exN 4 (some 4))] ∧
    ∀ (s : Storage) (a b k : Nat) (p : List (Option MemoryNode)),
      find_path s a b k = some p → p.length ≤ k + 2 := by
  refine ⟨by with_unfolding_all rfl, by with_unfolding_all rfl, ?_⟩
  intro s a b k p h
  unfold find_path at h
  by_cases hab : a == b
  · rw [if_pos hab] at h
    match hg : get_node s a with
    | some node => rw [hg] at h; cases h; simp
    | none => rw [hg] at h; cases h
  · rw [if_neg hab] at h
    exact findPathAux_length_le s b k (loopFuel s) [(a, [a])] [] p h

/-- Closed instance of the quantified part of the amended C2 claim at the
chain fixture. -/
theorem C2_find_path_amended_witness :
    ([some (exN 1 (some 1)), some (exN 2 (some 2)), some (exN 3 (some 3)),
      some (exN 4 (some 4))] : List (Option MemoryNode)).length ≤ 2 + 2 :=
  C2_find_path_amended.2.2 chainStore 1 4 2 _ C2_find_path_amended.2.1

/-! ### C3 — add_node / get_node round-trip -/

/-- A node whose embedding component `1 + 2⁻³⁰` is a binary64 value that is
not representable in binary32. -/
def exNodeC3 : MemoryNode :=
  { exN 1 (some 0) with embedding := some [1 + 1 / 2 ^ 30] }

/-- C3 counterexample: the claim says every field of every node — the
embedding included — round-trips unchanged through `add_node`/`get_node`.
`_serialize_embedding` packs components with `struct.pack('f')`, narrowing
them to binary32: inserting a node whose embedding is `[1 + 2⁻³⁰]` stores
`[1]`, and the fetched node differs from the inserted one. -/
theorem C3_counterexample :
    add_node ⟨[], []⟩ exNodeC3 =
      some (⟨[{ exNodeC3 with embedding := some [1] }], []⟩, 1) ∧
    get_node ⟨[{ exNodeC3 with embedding := some [1] }], []⟩ 1 =
      some { exNodeC3 with embedding := some [1] } ∧
    ({ exNodeC3 with embedding := some [1] } : MemoryNode) ≠ exNodeC3 := by
  refine ⟨by with_unfolding_all rfl, by with_unfolding_all rfl, ?_⟩
  intro h
  have he := congrArg MemoryNode.embedding h
  simp only [exNodeC3, exN] at he
  norm_num at he

/-- If every component of a list is fixed by binary32 rounding, serializing
the list succeeds and returns it unchanged. -/
theorem mapM_serializeF32_fixed :
    ∀ (l l1 : List ℚ), (∀ c ∈ l, roundF32 c = c) →
      l.mapM serializeF32 = some l1 → l1 = l := by
  intro l
  induction l with
  | nil =>
    intro l1 _ h
    rw [List.mapM_nil] at h
    exact (Option.some.inj h).symm
  | cons c cs ih =>
    intro l1 hfix h
    rw [List.mapM_cons] at h
    match hc : serializeF32 c with
    | none => rw [hc] at h; simp at h
    | some v =>
      rw [hc] at h
      match hcs : cs.mapM serializeF32 with
      | none => rw [hcs] at h; simp at h
      | some vs =>
        rw [hcs] at h
        have hv : v = roundF32 c := by
          simp only [serializeF32] at hc
          split at hc
          · exact (Option.some.inj hc).symm
          · cases hc
        have hveq : v = c := by rw [hv, hfix c (by simp)]
        have hrest : vs = cs := ih vs (fun x hx => hfix x (by simp [hx])) hcs
        simp at h
        cases h
        rw [hveq, hrest]

/-- C3 (amended): `add_node` then `get_node` round-trips every field except
the embedding, which is narrowed to binary32 by `struct.pack('f')`: the
fetched node agrees with the inserted one on all other fields, and when every
embedding component is a binary32-representable value (in particular when the
embedding is absent) the fetched node equals the inserted one exactly. -/
theorem C3_roundtrip :
    ∀ (s : Storage) (n : MemoryNode) (s1 : Storage) (i : Nat),
      add_node s n = some (s1, i) →
      i = n.id ∧
      (∃ m : MemoryNode, get_node s1 n.id = some m ∧
        m = { n with embedding := m.embedding }) ∧
      ((∀ l, n.embedding = some l → ∀ c ∈ l, roundF32 c = c) →
        get_node s1 n.id = some n) := by
  intro s n s1 i h
  unfold add_node at h
  by_cases hdup : s.nodes.any (fun m => m.id == n.id)
  · rw [if_pos hdup] at h; cases h
  · rw [if_neg hdup] at h
    match hsn : storeNode n with
    | none => rw [hsn] at h; cases h
    | some sn =>
      rw [hsn] at h
      simp only [Option.map_some'] at h
      cases h
      have hsn2 := hsn
      unfold storeNode at hsn2
      match hse : storeEmbedding n.embedding with
      | none => rw [hse] at hsn2; cases hsn2
      | some emb =>
        rw [hse] at hsn2
        simp only [Option.map_some'] at hsn2
        have hsneq : sn = { n with embedding := emb } := by
          cases hsn2; rfl
        have hid : sn.id = n.id := by rw [hsneq]
        have hfind : get_node { s with nodes := s.nodes ++ [sn] } n.id = some sn := by
          unfold get_node
          rw [List.find?_append]
          have h1 : s.nodes.find? (fun m => m.id == n.id) = none := by
            rw [List.find?_eq_none]
            intro m hm hmid
            exact hdup (List.any_eq_true.mpr ⟨m, hm, hmid⟩)
          rw [h1]
          simp [List.find?, hid]
        refine ⟨rfl, ⟨sn, hfind, ?_⟩, ?_⟩
        · rw [hsneq]
        intro hfix
        have hemb : emb = n.embedding := by
          match hne : n.embedding with
          | none =>
            rw [hne] at hse
            simp only [storeEmbedding] at hse
            cases hse
            rfl
          | some l =>
            rw [hne] at hse
            simp only [storeEmbedding] at hse
            match hml : l.mapM serializeF32 with
            | none => rw [hml] at hse; simp at hse
            | some l1 =>
              rw [hml] at hse
              simp only [Option.map_some'] at hse
              cases hse
              rw [mapM_serializeF32_fixed l l1 (hfix l hne) hml]
        have : sn = n := by
          rw [hsneq, hemb]
        rw [hfind, this]

/-- Closed instance of C3 (amended): an embedding of binary32-representable
components round-trips bit-for-bit. -/
theorem C3_roundtrip_witness :
    get_node ⟨[{ exN 5 (some 0) with embedding := some [1, 1/2] }], []⟩ 5 =
      some { exN 5 (some 0) with embedding := some [1, 1/2] } := by
  refine (C3_roundtrip ⟨[], []⟩ { exN 5 (some 0) with embedding := some [1, 1/2] }
    ⟨[{ exN 5 (some 0) with embedding := some [1, 1/2] }], []⟩ 5
    (by with_unfolding_all rfl)).2.2 ?_
  intro l hl c hc
  cases hl
  simp only [List.mem_cons, List.not_mem_nil, or_false] at hc
  rcases hc with rfl | rfl
  · with_unfolding_all rfl
  · with_unfolding_all rfl

/-! ### C4 — get_context_window ordering -/

/-- C4 counterexample: the claim says the whole returned window is in
chronological (ascending `when`) order.  With center 1 (time 10) and two later
nodes 2 (time 20) and 3 (time 30), the window is `[node 1, node 3, node 2]`:
the newer half comes from a `when_ts DESC` query and is never reversed. -/
theorem C4_counterexample :
    get_context_window ctxStore 1 5 5 =
      [exN 1 (some 10), exN 3 (some 30), exN 2 (some 20)] ∧
    ¬ (get_context_window ctxStore 1 5 5).Pairwise
        (fun a b => owLe a.when b.when = true) := by
  have h : get_context_window ctxStore 1 5 5 =
      [exN 1 (some 10), exN 3 (some 30), exN 2 (some 20)] := by
    with_unfolding_all rfl
  refine ⟨h, ?_⟩
  rw [h]
  decide

/-! ### C5/C6/C10 — traverse_bfs invariants -/

/-- A graph with a self-loop on node 1 and two parallel edges between 1 and 2. -/
def loopStore : Storage :=
  ⟨[exN 1 (some 1), exN 2 (some 2)],
   [exE 10 1 1 .relates_to, exE 11 1 2 .led_to, exE 12 1 2 .relates_to,
    exE 13 2 1 .led_to]⟩

/-- What the BFS loop guarantees of every emitted result. -/
def ResOk (start mh : Nat) (r : QueryResult) : Prop :=
  r.score = 1 / (r.hop_count + 1 : ℚ) ∧ r.path.head? = some start ∧
  r.path.getLast? = some r.node.id ∧ r.hop_count ≤ mh

/-- What the BFS loop maintains of every queue entry `(id, hop, path)`. -/
def QEntOk (start mh : Nat) (e : Nat × Nat × List Nat) : Prop :=
  e.2.2 ≠ [] ∧ e.2.2.head? = some start ∧ e.2.2.getLast? = some e.1 ∧ e.2.1 ≤ mh

/-- The head of a nonempty list survives appending. -/
theorem head?_append_left (l l2 : List Nat) (h : l ≠ []) :
    (l ++ l2).head? = l.head? := by
  cases l with
  | nil => exact absurd rfl h
  | cons a as_ => rfl

/-- A successful `get_node` returns a row with the looked-up id. -/
theorem get_node_id (s : Storage) (i : Nat) (n : MemoryNode)
    (h : get_node s i = some n) : n.id = i := by
  unfold get_node at h
  have := List.find?_some h
  simpa using this

/-- The BFS loop on an empty queue returns the accumulated results. -/
theorem bfsAux_nil (s : Storage) (mh : Nat) (et : Option (List EdgeType))
    (dir : Direction) (inc : Bool) (start : Nat) :
    ∀ (fuel : Nat) (visited : List Nat) (results : List QueryResult),
      bfsAux s mh et dir inc start fuel [] visited results = results := by
  intro fuel visited results
  cases fuel with
  | zero => rfl
  | succ f => rfl

/-- Invariant of the `traverse_bfs` loop: provided every pending queue entry
has a well-formed path and hop count and every accumulated result is
well-formed with its node id already visited, every final result is
well-formed and the final results carry pairwise-distinct node ids. -/
theorem bfsAux_invariant (s : Storage) (mh : Nat) (et : Option (List EdgeType))
    (dir : Direction) (inc : Bool) (start : Nat) :
    ∀ (fuel : Nat) (queue : List (Nat × Nat × List Nat)) (visited : List Nat)
      (results : List QueryResult),
      (∀ e ∈ queue, QEntOk start mh e) →
      (∀ r ∈ results, ResOk start mh r ∧ r.node.id ∈ visited) →
      results.Pairwise (fun a b => a.node.id ≠ b.node.id) →
      (∀ r ∈ bfsAux s mh et dir inc start fuel queue visited results,
        ResOk start mh r) ∧
      (bfsAux s mh et dir inc start fuel queue visited results).Pairwise
        (fun a b => a.node.id ≠ b.node.id) := by
  intro fuel
  induction fuel with
  | zero =>
    intro queue visited results _ hres hpw
    simp only [bfsAux]
    exact ⟨fun r hr => (hres r hr).1, hpw⟩
  | succ fuel ih =>
    intro queue visited results hq hres hpw
    match queue with
    | [] =>
      simp only [bfsAux]
      exact ⟨fun r hr => (hres r hr).1, hpw⟩
    | (cid, hop, p) :: rest =>
      simp only [bfsAux]
      by_cases hv : visited.contains cid
      · rw [if_pos hv]
        exact ih rest visited results (fun e he => hq e (List.mem_cons_of_mem _ he)) hres hpw
      · rw [if_neg hv]
        have hvmem : cid ∉ visited := by simpa using hv
        cases hg : get_node s cid with
        | none =>
          dsimp only
          exact ih rest (cid :: visited) results
            (fun e he => hq e (List.mem_cons_of_mem _ he))
            (fun r hr => ⟨(hres r hr).1, List.mem_cons_of_mem _ (hres r hr).2⟩) hpw
        | some node =>
          dsimp only
          have hqhead := hq (cid, hop, p) (List.mem_cons_self _ _)
          rcases hqhead with ⟨hpne, hphead, hplast, hhop⟩
          have hnid : node.id = cid := get_node_id s cid node hg
          have hnewOk : ResOk start mh ⟨node, 1 / (hop + 1 : ℚ), p, hop⟩ :=
            ⟨rfl, hphead, by simpa [hnid] using hplast, hhop⟩
          have hres1 : ∀ rs1, (rs1 = results ++ [⟨node, 1 / (hop + 1 : ℚ), p, hop⟩] ∨
              rs1 = results) →
              (∀ r ∈ rs1, ResOk start mh r ∧ r.node.id ∈ cid :: visited) ∧
              rs1.Pairwise (fun a b => a.node.id ≠ b.node.id) := by
            intro rs1 hrs1
            rcases hrs1 with rfl | rfl
            · constructor
              · intro r hr
                rcases List.mem_append.mp hr with hr | hr
                · exact ⟨(hres r hr).1, List.mem_cons_of_mem _ (hres r hr).2⟩
                · simp only [List.mem_singleton] at hr
                  subst hr
                  exact ⟨hnewOk, by simp [hnid]⟩
              · refine List.pairwise_append.mpr ⟨hpw, List.pairwise_singleton _ _, ?_⟩
                intro a ha b hb
                simp only [List.mem_singleton] at hb
                subst hb
                have : a.node.id ∈ visited := (hres a ha).2
                simp only [hnid]
                intro hcontra
                rw [hcontra] at this
                exact hvmem this
            · exact ⟨fun r hr => ⟨(hres r hr).1, List.mem_cons_of_mem _ (hres r hr).2⟩, hpw⟩
          by_cases hemit : (inc || cid != start) = true
          · rw [if_pos hemit]
            have hinv := hres1 _ (Or.inl rfl)
            by_cases hstop : mh ≤ hop
            · rw [if_pos hstop]
              exact ih rest (cid :: visited) _
                (fun e he => hq e (List.mem_cons_of_mem _ he)) hinv.1 hinv.2
            · rw [if_neg hstop]
              refine ih _ (cid :: visited) _ ?_ hinv.1 hinv.2
              intro e he
              rcases List.mem_append.mp he with he | he
              · exact hq e (List.mem_cons_of_mem _ he)
              · rcases List.mem_flatMap.mp he with ⟨t, _, hef⟩
                rcases List.mem_filterMap.mp hef with ⟨ed, _, hed⟩
                by_cases hc : (cid :: visited).contains
                    (if ed.source_id == cid then ed.target_id else ed.source_id)
                · rw [if_pos hc] at hed; cases hed
                · rw [if_neg hc] at hed
                  cases hed
                  refine ⟨by simp, ?_, ?_, ?_⟩
                  · exact (head?_append_left p _ hpne).trans hphead
                  · simp [List.getLast?_concat]
                  · exact Nat.succ_le_of_lt (Nat.lt_of_not_le hstop)
          · rw [if_neg hemit]
            have hinv := hres1 _ (Or.inr rfl)
            by_cases hstop : mh ≤ hop
            · rw [if_pos hstop]
              exact ih rest (cid :: visited) _
                (fun e he => hq e (List.mem_cons_of_mem _ he)) hinv.1 hinv.2
            · rw [if_neg hstop]
              refine ih _ (cid :: visited) _ ?_ hinv.1 hinv.2
              intro e he
              rcases List.mem_append.mp he with he | he
              · exact hq e (List.mem_cons_of_mem _ he)
              · rcases List.mem_flatMap.mp he with ⟨t, _, hef⟩
                rcases List.mem_filterMap.mp hef with ⟨ed, _, hed⟩
                by_cases hc : (cid :: visited).contains
                    (if ed.source_id == cid then ed.target_id else ed.source_id)
                · rw [if_pos hc] at hed; cases hed
                · rw [if_neg hc] at hed
                  cases hed
                  refine ⟨by simp, ?_, ?_, ?_⟩
                  · exact (head?_append_left p _ hpne).trans hphead
                  · simp [List.getLast?_concat]
                  · exact Nat.succ_le_of_lt (Nat.lt_of_not_le hstop)

/-- The initial queue of `traverse_bfs` satisfies the loop invariant. -/
theorem traverse_bfs_invariant (s : Storage) (start mh : Nat)
    (et : Option (List EdgeType)) (dir : Direction) (inc : Bool) :
    (∀ r ∈ traverse_bfs s start mh et dir inc, ResOk start mh r) ∧
    (traverse_bfs s start mh et dir inc).Pairwise
      (fun a b => a.node.id ≠ b.node.id) := by
  refine bfsAux_invariant s mh et dir inc start (bfsFuel s et)
    [(start, 0, [start])] [] [] ?_ (by simp) (by simp)
  intro e he
  simp only [List.mem_singleton] at he
  subst he
  exact ⟨by simp, rfl, rfl, Nat.zero_le _⟩

/-- C5: every result of `traverse_bfs` has hop count at most `max_hops`
(a node dequeued at `max_hops` is emitted but its neighbors are not
expanded), and with `max_hops = 0` and `include_start` true the result is
exactly the single entry for the (stored) start node, with score 1 and the
one-node path. -/
theorem C5_bfs_hop_bound :
    (∀ (s : Storage) (start mh : Nat) (et : Option (List EdgeType))
       (dir : Direction) (inc : Bool),
       ∀ r ∈ traverse_bfs s start mh et dir inc, r.hop_count ≤ mh) ∧
    (∀ (s : Storage) (start : Nat) (et : Option (List EdgeType))
       (dir : Direction) (nd : MemoryNode),
       get_node s start = some nd →
       traverse_bfs s start 0 et dir true = [⟨nd, 1, [start], 0⟩]) := by
  constructor
  · intro s start mh et dir inc r hr
    exact ((traverse_bfs_invariant s start mh et dir inc).1 r hr).2.2.2
  · intro s start et dir nd hg
    unfold traverse_bfs bfsFuel
    have hfuel : 2 * (orAllTypes et).length * s.edges.length + 2 =
        (2 * (orAllTypes et).length * s.edges.length + 1) + 1 := rfl
    rw [hfuel]
    simp only [bfsAux]
    rw [if_neg (by simp)]
    rw [hg]
    dsimp only
    rw [if_pos (Nat.le_refl 0)]
    rw [if_pos (by simp)]
    norm_num

/-- Closed instance of C5 on the chain fixture: the one-hop neighbor is
reported at hop 1 ≤ 2, and a zero-hop traversal returns exactly the start. -/
theorem C5_bfs_hop_bound_witness :
    (⟨exN 2 (some 2), 1/2, [1, 2], 1⟩ : QueryResult).hop_count ≤ 2 ∧
    traverse_bfs chainStore 1 0 none Direction.both true =
      [⟨exN 1 (some 1), 1, [1], 0⟩] := by
  constructor
  · refine C5_bfs_hop_bound.1 chainStore 1 2 none Direction.both true _ ?_
    have h : traverse_bfs chainStore 1 2 none Direction.both true =
        [⟨exN 1 (some 1), 1, [1], 0⟩, ⟨exN 2 (some 2), 1/2, [1, 2], 1⟩,
         ⟨exN 3 (some 3), 1/3, [1, 2, 3], 2⟩] := by
      with_unfolding_all rfl
    rw [h]
    exact List.mem_cons_of_mem _ (List.mem_cons_self _ _)
  · exact C5_bfs_hop_bound.2 chainStore 1 none Direction.both (exN 1 (some 1))
      (by with_unfolding_all rfl)

/-- C6: in every `traverse_bfs` result list each node id appears at most once
(multi-edges and self-loops included, thanks to the visited set), and every
result's score is `1 / (hop_count + 1)` and its path runs from the start id to
the emitted node's id. -/
theorem C6_bfs_dedup_score_path :
    ∀ (s : Storage) (start mh : Nat) (et : Option (List EdgeType))
      (dir : Direction) (inc : Bool),
      (traverse_bfs s start mh et dir inc).Pairwise
        (fun a b => a.node.id ≠ b.node.id) ∧
      ∀ r ∈ traverse_bfs s start mh et dir inc,
        r.score = 1 / (r.hop_count + 1 : ℚ) ∧
        r.path.head? = some start ∧ r.path.getLast? = some r.node.id := by
  intro s start mh et dir inc
  have h := traverse_bfs_invariant s start mh et dir inc
  exact ⟨h.2, fun r hr => ⟨(h.1 r hr).1, (h.1 r hr).2.1, (h.1 r hr).2.2.1⟩⟩

/-- Closed instance of C6 on the fixture with a self-loop and parallel edges:
nodes 1 and 2 are each emitted once, and the hop-1 result for node 2 carries
score 1/2 and path `[1, 2]`. -/
theorem C6_bfs_dedup_score_path_witness :
    ([⟨exN 1 (some 1), 1, [1], 0⟩, ⟨exN 2 (some 2), 1/2, [1, 2], 1⟩] :
        List QueryResult).Pairwise (fun a b => a.node.id ≠ b.node.id) ∧
    (⟨exN 2 (some 2), 1/2, [1, 2], 1⟩ : QueryResult).score =
      1 / ((⟨exN 2 (some 2), 1/2, [1, 2], 1⟩ : QueryResult).hop_count + 1 : ℚ) := by
  have h : traverse_bfs loopStore 1 3 none Direction.both true =
      [⟨exN 1 (some 1), 1, [1], 0⟩, ⟨exN 2 (some 2), 1/2, [1, 2], 1⟩] := by
    with_unfolding_all rfl
  have hinv := C6_bfs_dedup_score_path loopStore 1 3 none Direction.both true
  constructor
  · rw [h] at hinv
    exact hinv.1
  · refine (hinv.2 _ ?_).1
    rw [h]
    exact List.mem_cons_of_mem _ (List.mem_cons_self _ _)

/-- The `find_path` loop on an empty queue reports not-found. -/
theorem findPathAux_nil (s : Storage) (t k : Nat) :
    ∀ (fuel : Nat) (visited : List Nat),
      findPathAux s t k fuel [] visited = none := by
  intro fuel visited
  cases fuel with
  | zero => rfl
  | succ f => rfl

/-- If no scanned edge references the target, the edge scan does not find it. -/
theorem scanEdges_none_of_unref (c t : Nat) (p v : List Nat) :
    ∀ es : List Edge, (∀ e ∈ es, e.source_id ≠ t ∧ e.target_id ≠ t) →
      (scanEdges c t p v es).1 = none := by
  intro es
  induction es with
  | nil => intro _; rfl
  | cons e es ih =>
    intro h
    simp only [scanEdges]
    have he := h e (List.mem_cons_self _ _)
    have hne : ¬ (((if e.source_id == c then e.target_id else e.source_id) == t) = true) := by
      by_cases hs : (e.source_id == c) = true
      · simp only [hs, if_pos]
        simpa using he.2
      · rw [if_neg hs]
        simpa using he.1
    rw [if_neg hne]
    have hrest := ih (fun f hf => h f (List.mem_cons_of_mem _ hf))
    by_cases hc : v.contains (if e.source_id == c then e.target_id else e.source_id)
    · rw [if_pos hc]; exact hrest
    · rw [if_neg hc]; exact hrest

/-- If no stored edge references the target id, the `find_path` loop reports
not-found (the only way it returns a path is through an edge whose far
endpoint is the target). -/
theorem findPathAux_none_of_unref (s : Storage) (t k : Nat)
    (h : ∀ e ∈ s.edges, e.source_id ≠ t ∧ e.target_id ≠ t) :
    ∀ (fuel : Nat) (queue : List (Nat × List Nat)) (visited : List Nat),
      findPathAux s t k fuel queue visited = none := by
  intro fuel
  induction fuel with
  | zero => intro queue visited; rfl
  | succ fuel ih =>
    intro queue visited
    match queue with
    | [] => rfl
    | (c, p) :: rest =>
      simp only [findPathAux]
      by_cases hp : k + 1 < p.length
      · rw [if_pos hp]; exact ih rest visited
      · rw [if_neg hp]
        by_cases hv : visited.contains c
        · rw [if_pos hv]; exact ih rest visited
        · rw [if_neg hv]
          have hsub : ∀ e ∈ get_edges s c Direction.both none,
              e.source_id ≠ t ∧ e.target_id ≠ t := by
            intro e he
            simp only [get_edges] at he
            exact h e (List.mem_filter.mp he).1
          rcases hpair : scanEdges c t p (c :: visited)
              (get_edges s c Direction.both none) with ⟨r, q⟩
          have hr : r = none := by
            have h1 := scanEdges_none_of_unref c t p (c :: visited) _ hsub
            rw [hpair] at h1
            exact h1
          subst hr
          exact ih (rest ++ q) (c :: visited)

/-- C10: traversal from a node id that is not stored is not an error: with a
missing start id `traverse_bfs` returns the empty list, and when the missing
id additionally has no stored edges referencing it, `find_path` with that id
as either endpoint returns `None`, the same value as for a missing path. -/
theorem C10_missing_node :
    ∀ (s : Storage) (i mh k : Nat) (et : Option (List EdgeType)) (dir : Direction)
      (inc : Bool) (b : Nat),
      get_node s i = none →
      traverse_bfs s i mh et dir inc = [] ∧
      ((∀ e ∈ s.edges, e.source_id ≠ i ∧ e.target_id ≠ i) →
        find_path s i b k = none ∧ find_path s b i k = none) := by
  intro s i mh k et dir inc b hg
  refine ⟨?_, ?_⟩
  · unfold traverse_bfs bfsFuel
    have hfuel : 2 * (orAllTypes et).length * s.edges.length + 2 =
        (2 * (orAllTypes et).length * s.edges.length + 1) + 1 := rfl
    rw [hfuel]
    simp only [bfsAux]
    rw [if_neg (by simp)]
    rw [hg]
  · intro hunref
    have hge : get_edges s i Direction.both none = [] := by
      simp only [get_edges]
      rw [List.filter_eq_nil_iff]
      intro e he
      simp only [edgePred, Bool.or_eq_true, beq_iff_eq]
      rintro (h1 | h2)
      · exact (hunref e he).1 h1
      · exact (hunref e he).2 h2
    constructor
    · unfold find_path
      by_cases hib : (i == b) = true
      · rw [if_pos hib, hg]
      · rw [if_neg hib]
        unfold loopFuel
        have hfuel : 2 * s.edges.length + 2 = (2 * s.edges.length + 1) + 1 := rfl
        rw [hfuel]
        simp only [findPathAux]
        rw [if_neg (by simp)]
        rw [if_neg (by simp)]
        rw [hge]
        simp only [scanEdges]
        rw [List.nil_append]
        exact findPathAux_nil s b k _ _
    · unfold find_path
      by_cases hbi : (b == i) = true
      · rw [if_pos hbi]
        have hb : b = i := by simpa using hbi
        rw [hb, hg]
      · rw [if_neg hbi]
        exact findPathAux_none_of_unref s i k hunref (loopFuel s) _ _

/-- Closed instance of C10: id 99 is not stored in the two-node fixture and no
edge references it; both traversals report the empty / not-found value. -/
theorem C10_missing_node_witness :
    traverse_bfs delStore 99 2 none Direction.both true = [] ∧
    find_path delStore 99 2 6 = none ∧ find_path delStore 2 99 6 = none := by
  have h := C10_missing_node delStore 99 2 6 none Direction.both true 2
    (by with_unfolding_all rfl)
  have h2 := h.2 (by decide)
  exact ⟨h.1, h2.1, h2.2⟩

/-! ### C7/C4 — query_by_time and the context window -/

/-- `owLe` is total. -/
theorem owLe_total (x y : Option Int) (h : owLe x y = false) : owLe y x = true := by
  match x, y with
  | none, _ => simp [owLe] at h
  | some a, none => rfl
  | some a, some b =>
    simp only [owLe, decide_eq_false_iff_not, not_le] at h
    simp only [owLe, decide_eq_true_eq]
    omega

/-- `owLe` is transitive. -/
theorem owLe_trans (x y z : Option Int) (h1 : owLe x y = true) (h2 : owLe y z = true) :
    owLe x z = true := by
  match x, y, z with
  | none, _, _ => rfl
  | some a, none, _ => simp [owLe] at h1
  | some a, some b, none => simp [owLe] at h2
  | some a, some b, some c =>
    simp only [owLe, decide_eq_true_eq] at h1 h2 ⊢
    omega

/-- Membership in an insertion. -/
theorem mem_insertDescWhen (x a : MemoryNode) :
    ∀ l : List MemoryNode, a ∈ insertDescWhen x l → a = x ∨ a ∈ l := by
  intro l
  induction l with
  | nil =>
    intro h
    simp only [insertDescWhen, List.mem_singleton] at h
    exact Or.inl h
  | cons y ys ih =>
    intro h
    simp only [insertDescWhen] at h
    by_cases hc : owLe y.when x.when
    · rw [if_pos hc] at h
      rcases List.mem_cons.mp h with rfl | h2
      · exact Or.inl rfl
      · exact Or.inr h2
    · rw [if_neg hc] at h
      rcases List.mem_cons.mp h with rfl | h2
      · exact Or.inr (List.mem_cons_self _ _)
      · rcases ih h2 with h3 | h3
        · exact Or.inl h3
        · exact Or.inr (List.mem_cons_of_mem _ h3)

/-- Membership in the sorted list implies membership in the original. -/
theorem mem_sortDescWhen (a : MemoryNode) :
    ∀ l : List MemoryNode, a ∈ sortDescWhen l → a ∈ l := by
  intro l
  induction l with
  | nil => intro h; simp [sortDescWhen] at h
  | cons x xs ih =>
    intro h
    simp only [sortDescWhen] at h
    rcases mem_insertDescWhen x a (sortDescWhen xs) h with rfl | h2
    · exact List.mem_cons_self _ _
    · exact List.mem_cons_of_mem _ (ih h2)

/-- Inserting keeps the list sorted (descending on `when`). -/
theorem insertDescWhen_pairwise (x : MemoryNode) :
    ∀ l : List MemoryNode,
      l.Pairwise (fun a b => owLe b.when a.when = true) →
      (insertDescWhen x l).Pairwise (fun a b => owLe b.when a.when = true) := by
  intro l
  induction l with
  | nil => intro _; simp [insertDescWhen]
  | cons y ys ih =>
    intro h
    rcases List.pairwise_cons.mp h with ⟨hy, hys⟩
    simp only [insertDescWhen]
    by_cases hc : owLe y.when x.when
    · rw [if_pos hc]
      refine List.pairwise_cons.mpr ⟨?_, h⟩
      intro z hz
      rcases List.mem_cons.mp hz with rfl | hz2
      · exact hc
      · exact owLe_trans _ _ _ (hy z hz2) hc
    · rw [if_neg hc]
      refine List.pairwise_cons.mpr ⟨?_, ih hys⟩
      intro z hz
      rcases mem_insertDescWhen x z ys hz with rfl | hz2
      · exact owLe_total _ _ (Bool.eq_false_iff.mpr hc)
      · exact hy z hz2

/-- `ORDER BY when_ts DESC` output is sorted descending on `when`. -/
theorem sortDescWhen_pairwise :
    ∀ l : List MemoryNode,
      (sortDescWhen l).Pairwise (fun a b => owLe b.when a.when = true) := by
  intro l
  induction l with
  | nil => simp [sortDescWhen]
  | cons x xs ih => exact insertDescWhen_pairwise x (sortDescWhen xs) ih

/-- Looking up a stored row's id finds that row when ids are unique. -/
theorem find?_id_unique :
    ∀ l : List MemoryNode, l.Pairwise (fun a b => a.id ≠ b.id) →
      ∀ r ∈ l, l.find? (fun n => n.id == r.id) = some r := by
  intro l
  induction l with
  | nil => intro _ r hr; cases hr
  | cons x xs ih =>
    intro hpw r hr
    rcases List.pairwise_cons.mp hpw with ⟨hx, hxs⟩
    rcases List.mem_cons.mp hr with rfl | hr2
    · simp [List.find?]
    · have hneq : (x.id == r.id) = false := by
        simpa using hx r hr2
      simp only [List.find?, hneq]
      exact ih hxs r hr2

/-- Re-reading a stored row through `get_node` returns the row itself when the
primary-key constraint holds. -/
theorem refetch_mem (s : Storage) (hu : s.UniqueNodeIds) (r : MemoryNode)
    (hr : r ∈ s.nodes) : refetch s r = r := by
  unfold refetch get_node
  rw [find?_id_unique s.nodes hu r hr]
  rfl

/-- Mapping a function that fixes every member is the identity. -/
theorem map_id_of_eq :
    ∀ (l : List MemoryNode) (f : MemoryNode → MemoryNode),
      (∀ a ∈ l, f a = a) → l.map f = l := by
  intro l f
  induction l with
  | nil => intro _; rfl
  | cons x xs ih =>
    intro h
    simp only [List.map_cons]
    rw [h x (List.mem_cons_self _ _), ih (fun a ha => h a (List.mem_cons_of_mem _ ha))]

/-- With unique ids the trailing `get_node` re-reads of `query_by_time`
collapse, leaving the filtered, sorted, truncated row list. -/
theorem query_by_time_eq (s : Storage) (hu : s.UniqueNodeIds)
    (since until_ : Option Int) (limit : Nat) :
    query_by_time s since until_ limit =
      (sortDescWhen (s.nodes.filter (timeFilter since until_))).take limit := by
  unfold query_by_time
  apply map_id_of_eq
  intro a ha
  have h1 : a ∈ sortDescWhen (s.nodes.filter (timeFilter since until_)) :=
    List.mem_of_mem_take ha
  have h2 : a ∈ s.nodes := (List.mem_filter.mp (mem_sortDescWhen a _ h1)).1
  exact refetch_mem s hu a h2

/-- Every selected row of `query_by_time` is a stored row passing the time
filter. -/
theorem mem_query_by_time (s : Storage) (hu : s.UniqueNodeIds)
    (since until_ : Option Int) (limit : Nat) (n : MemoryNode)
    (hn : n ∈ query_by_time s since until_ limit) :
    n ∈ s.nodes ∧ timeFilter since until_ n = true := by
  rw [query_by_time_eq s hu] at hn
  have h1 := mem_sortDescWhen n _ (List.mem_of_mem_take hn)
  exact ⟨(List.mem_filter.mp h1).1, (List.mem_filter.mp h1).2⟩

/-- A row passing the filter satisfies the `since` bound. -/
theorem timeFilter_since (since until_ : Option Int) (n : MemoryNode)
    (h : timeFilter since until_ n = true) :
    ∀ t, since = some t → ∃ w, n.when = some w ∧ t ≤ w := by
  intro t ht
  subst ht
  rcases Bool.and_eq_true_iff.mp h with ⟨h1, _⟩
  cases hw : n.when with
  | none => rw [hw] at h1; cases h1
  | some w =>
    rw [hw] at h1
    exact ⟨w, rfl, by simpa using h1⟩

/-- A row passing the filter satisfies the `until` bound. -/
theorem timeFilter_until (since until_ : Option Int) (n : MemoryNode)
    (h : timeFilter since until_ n = true) :
    ∀ t, until_ = some t → ∃ w, n.when = some w ∧ w ≤ t := by
  intro t ht
  subst ht
  rcases Bool.and_eq_true_iff.mp h with ⟨_, h2⟩
  cases hw : n.when with
  | none => rw [hw] at h2; cases h2
  | some w =>
    rw [hw] at h2
    exact ⟨w, rfl, by simpa using h2⟩

/-- The output of `query_by_time` is sorted descending on `when`. -/
theorem query_by_time_sorted (s : Storage) (hu : s.UniqueNodeIds)
    (since until_ : Option Int) (limit : Nat) :
    (query_by_time s since until_ limit).Pairwise
      (fun a b => owLe b.when a.when = true) := by
  rw [query_by_time_eq s hu]
  exact (sortDescWhen_pairwise _).sublist (List.take_sublist _ _)

/-- C7: for every store and optional bounds, `query_by_time` returns only
nodes whose `when` satisfies the present bounds (a missing bound constrains
nothing), in descending `when` order, truncated to at most `limit` rows. -/
theorem C7_query_by_time :
    ∀ (s : Storage) (since until_ : Option Int) (limit : Nat),
      s.UniqueNodeIds →
      (query_by_time s since until_ limit).length ≤ limit ∧
      (∀ n ∈ query_by_time s since until_ limit,
        (∀ t, since = some t → ∃ w, n.when = some w ∧ t ≤ w) ∧
        (∀ t, until_ = some t → ∃ w, n.when = some w ∧ w ≤ t)) ∧
      (query_by_time s since until_ limit).Pairwise
        (fun a b => owLe b.when a.when = true) := by
  intro s since until_ limit hu
  refine ⟨?_, ?_, query_by_time_sorted s hu since until_ limit⟩
  · rw [query_by_time_eq s hu]
    simp
  · intro n hn
    have h := (mem_query_by_time s hu since until_ limit n hn).2
    exact ⟨timeFilter_since since until_ n h, timeFilter_until since until_ n h⟩

/-- Closed instance of C7 on the three-node fixture: with `since = 15` and
`limit = 1` the query returns one node, at most one row, in (trivially)
descending order. -/
theorem C7_query_by_time_witness :
    (query_by_time ctxStore (some 15) none 1).length ≤ 1 ∧
    (∀ n ∈ query_by_time ctxStore (some 15) none 1,
      (∀ t, (some 15 : Option Int) = some t → ∃ w, n.when = some w ∧ t ≤ w) ∧
      (∀ t, (none : Option Int) = some t → ∃ w, n.when = some w ∧ w ≤ t)) ∧
    (query_by_time ctxStore (some 15) none 1).Pairwise
      (fun a b => owLe b.when a.when = true) :=
  C7_query_by_time ctxStore (some 15) none 1 (by decide)

/-- C4 (amended): `get_context_window` returns up to `before` earlier
neighbors in ascending `when` order, then the center, then up to `after`
nodes with `when ≥ center.when` — but the trailing half is in *descending*
`when` order (the code never reverses the second `when_ts DESC` query), so
the whole list is not chronological; a missing center or a center without a
`when` yields the empty list. -/
theorem C4_context_window_amended :
    ∀ (s : Storage) (cid before after : Nat),
      s.UniqueNodeIds →
      (get_node s cid = none → get_context_window s cid before after = []) ∧
      (∀ c, get_node s cid = some c → c.when = none →
        get_context_window s cid before after = []) ∧
      (∀ c w, get_node s cid = some c → c.when = some w →
        ∃ bs as_, get_context_window s cid before after = bs ++ c :: as_ ∧
          bs.length ≤ before ∧ as_.length ≤ after ∧
          (∀ n ∈ bs, n.id ≠ cid ∧ ∃ wb, n.when = some wb ∧ wb ≤ w) ∧
          (∀ n ∈ as_, n.id ≠ cid ∧ ∃ wa, n.when = some wa ∧ w ≤ wa) ∧
          bs.Pairwise (fun a b => owLe a.when b.when = true) ∧
          as_.Pairwise (fun a b => owLe b.when a.when = true)) := by
  intro s cid before after hu
  refine ⟨?_, ?_, ?_⟩
  · intro hc
    unfold get_context_window
    rw [hc]
  · intro c hc hw
    unfold get_context_window
    rw [hc]
    dsimp only
    rw [hw]
  · intro c w hc hw
    unfold get_context_window
    rw [hc]
    dsimp only
    rw [hw]
    dsimp only
    refine ⟨_, _, rfl, ?_, ?_, ?_, ?_, ?_, ?_⟩
    · simp
    · simp
    · intro n hn
      rw [List.mem_reverse] at hn
      have h1 := List.mem_of_mem_take hn
      have h2 := List.mem_filter.mp h1
      have h3 := (mem_query_by_time s hu none (some w) (before + 1) n h2.1).2
      refine ⟨by simpa using h2.2, timeFilter_until none (some w) n h3 w rfl⟩
    · intro n hn
      have h1 := List.mem_of_mem_take hn
      have h2 := List.mem_filter.mp h1
      have h3 := (mem_query_by_time s hu (some w) none (after + 1) n h2.1).2
      refine ⟨by simpa using h2.2, timeFilter_since (some w) none n h3 w rfl⟩
    · refine List.pairwise_reverse.mpr ?_
      exact ((query_by_time_sorted s hu none (some w) (before + 1)).sublist
        (List.Sublist.trans (List.take_sublist _ _) (List.filter_sublist _))).imp
        (fun h => h)
    · exact ((query_by_time_sorted s hu (some w) none (after + 1)).sublist
        (List.Sublist.trans (List.take_sublist _ _) (List.filter_sublist _)))

/-- Closed instance of C4 (amended): the center node of the three-node
fixture appears in its own context window. -/
theorem C4_context_window_amended_witness :
    exN 2 (some 20) ∈ get_context_window ctxStore 2 5 5 := by
  obtain ⟨bs, as_, heq, -⟩ :=
    (C4_context_window_amended ctxStore 2 5 5 (by decide)).2.2 (exN 2 (some 20)) 20
      (by with_unfolding_all rfl) rfl
  rw [heq]
  exact List.mem_append.mpr (Or.inr (List.mem_cons_self _ _))

/-! ### C8 — query_by_tags semantics -/

/-- Fixture with tagged nodes. -/
def tagStore : Storage :=
  ⟨[{ exN 1 none with tags := ["x", "y"] }, { exN 2 none with tags := ["x"] },
    { exN 3 none with tags := ["z"] }], []⟩

/-- C8: with a non-empty query tag list, `query_by_tags` with `match_all`
returns only nodes whose tag set contains every query tag, and without
`match_all` only nodes sharing at least one tag with the query. -/
theorem C8_query_by_tags :
    ∀ (s : Storage) (tags : List String) (match_all : Bool) (limit : Nat),
      s.UniqueNodeIds → tags ≠ [] →
      ∀ n ∈ query_by_tags s tags match_all limit,
        (match_all = true → ∀ t ∈ tags, t ∈ n.tags) ∧
        (match_all = false → ∃ t ∈ tags, t ∈ n.tags) := by
  intro s tags ma limit hu hne n hn
  unfold query_by_tags at hn
  rcases List.mem_map.mp hn with ⟨r, hr, hrn⟩
  have hr1 := List.mem_of_mem_take hr
  have hr2 := List.mem_filter.mp hr1
  have hr3 : r ∈ s.nodes := List.mem_of_mem_take hr2.1
  have hnr : n = r := by rw [← hrn, refetch_mem s hu r hr3]
  subst hnr
  have hmt := hr2.2
  constructor
  · intro hma
    subst hma
    unfold tagMatch at hmt
    rw [if_pos rfl] at hmt
    intro t ht
    simpa using List.all_eq_true.mp hmt t ht
  · intro hma
    subst hma
    unfold tagMatch at hmt
    rw [if_neg (by simp)] at hmt
    rcases List.any_eq_true.mp hmt with ⟨t, ht, htc⟩
    exact ⟨t, ht, by simpa using htc⟩

/-- Closed instance of C8 on the tagged fixture: the AND query returns a node
carrying both tags, the OR query returns a node carrying at least one. -/
theorem C8_query_by_tags_witness :
    ("x" ∈ ({ exN 1 none with tags := ["x", "y"] } : MemoryNode).tags) ∧
    ∃ t ∈ (["x", "y"] : List String),
      t ∈ ({ exN 2 none with tags := ["x"] } : MemoryNode).tags := by
  have heq1 : query_by_tags tagStore ["x", "y"] true 10 =
      [{ exN 1 none with tags := ["x", "y"] }] := by
    with_unfolding_all rfl
  have heq2 : query_by_tags tagStore ["x", "y"] false 10 =
      [{ exN 1 none with tags := ["x", "y"] }, { exN 2 none with tags := ["x"] }] := by
    with_unfolding_all rfl
  have h1 := C8_query_by_tags tagStore ["x", "y"] true 10 (by decide) (by simp)
    ({ exN 1 none with tags := ["x", "y"] }) (by rw [heq1]; exact List.mem_cons_self _ _)
  have h2 := C8_query_by_tags tagStore ["x", "y"] false 10 (by decide) (by simp)
    ({ exN 2 none with tags := ["x"] })
    (by rw [heq2]; exact List.mem_cons_of_mem _ (List.mem_cons_self _ _))
  exact ⟨h1.1 rfl ("x") (by simp), h2.2 rfl⟩

/-! ### C9 — deduplicated insertion -/

/-- Starting with itself, a pattern is found. -/
theorem startsWithSeq_refl : ∀ l : List Char, startsWithSeq l l = true := by
  intro l
  induction l with
  | nil => rfl
  | cons c cs ih => simp [startsWithSeq, ih]

/-- A pattern is contained in any string that ends with it. -/
theorem containsSeq_append_self :
    ∀ (pre p : List Char), containsSeq p (pre ++ p) = true := by
  intro pre
  induction pre with
  | nil =>
    intro p
    rw [List.nil_append]
    cases p with
    | nil => rfl
    | cons c cs => simp [containsSeq, startsWithSeq_refl]
  | cons b bs ih =>
    intro p
    simp [containsSeq, ih p]

/-- Lowercasing distributes over string concatenation. -/
theorem lowerChars_append (a b : String) :
    lowerChars (a ++ b) = lowerChars a ++ lowerChars b := by
  simp [lowerChars]

/-- The `source` value written by `add_node_with_dedup` matches the
`LIKE '%hash:{h}%'` pattern the next call checks. -/
theorem likeContains_sourceWithHash (src : Option String) (h : String) :
    likeContains ("hash:" ++ h) (sourceWithHash src h) = true := by
  unfold sourceWithHash likeContains
  by_cases hb : src.getD ("") = ""
  · rw [if_pos hb]
    exact containsSeq_append_self [] _
  · rw [if_neg hb]
    rw [lowerChars_append (src.getD ("") ++ " ") ("hash:" ++ h)]
    exact containsSeq_append_self _ _

/-- `storeNode` never changes the `source` column. -/
theorem storeNode_source (n sn : MemoryNode) (h : storeNode n = some sn) :
    sn.source = n.source ∧ sn.id = n.id := by
  unfold storeNode at h
  cases hse : storeEmbedding n.embedding with
  | none => rw [hse] at h; cases h
  | some emb =>
    rw [hse] at h
    simp only [Option.map_some'] at h
    cases h
    exact ⟨rfl, rfl⟩

/-- C9: dedup insertion is idempotent.  If no stored node carries hash `h`
(and `h` is non-empty, so Python's truthiness check passes), a successful
`add_node_with_dedup` reports `was_new` and the node's own id; any second
call with the same hash inserts nothing, returns the stored node's id with
`was_new = false`, and exactly one stored node carries the hash. -/
theorem C9_dedup_idempotent :
    ∀ (s : Storage) (n1 : MemoryNode) (h : String) (s1 : Storage) (id1 : Nat)
      (wasNew : Bool),
      h ≠ "" →
      (∀ m ∈ s.nodes, carriesHash h m = false) →
      add_node_with_dedup s n1 (some h) = some (s1, id1, wasNew) →
      wasNew = true ∧ id1 = n1.id ∧
      (∀ n2 : MemoryNode, add_node_with_dedup s1 n2 (some h) = some (s1, id1, false)) ∧
      (s1.nodes.filter (carriesHash h)).length = 1 := by
  intro s n1 h s1 id1 wasNew hne hnone hcall
  have hfind : s.nodes.find? (carriesHash h) = none := by
    rw [List.find?_eq_none]
    intro m hm hc
    rw [hnone m hm] at hc
    cases hc
  unfold add_node_with_dedup at hcall
  dsimp only at hcall
  rw [if_neg hne] at hcall
  unfold check_duplicate at hcall
  rw [hfind] at hcall
  dsimp only [Option.map_none'] at hcall
  unfold engram_add_node add_node at hcall
  by_cases hdup : s.nodes.any
      (fun m => m.id == ({ n1 with source := some (sourceWithHash n1.source h) } :
        MemoryNode).id)
  · rw [if_pos hdup] at hcall
    cases hcall
  · rw [if_neg hdup] at hcall
    cases hsn : storeNode { n1 with source := some (sourceWithHash n1.source h) } with
    | none =>
      rw [hsn] at hcall
      cases hcall
    | some sn =>
      rw [hsn] at hcall
      simp only [Option.map_some'] at hcall
      cases hcall
      have hsrc := storeNode_source _ sn hsn
      have hcarr : carriesHash h sn = true := by
        unfold carriesHash
        rw [hsrc.1]
        exact likeContains_sourceWithHash n1.source h
      refine ⟨rfl, rfl, ?_, ?_⟩
      · intro n2
        unfold add_node_with_dedup
        dsimp only
        rw [if_neg hne]
        unfold check_duplicate
        have hfind1 : (s.nodes ++ [sn]).find? (carriesHash h) = some sn := by
          rw [List.find?_append, hfind]
          simp [List.find?, hcarr]
        rw [hfind1]
        simp only [Option.map_some']
        have : sn.id = n1.id := hsrc.2
        rw [this]
      · have : (s.nodes ++ [sn]).filter (carriesHash h) = [sn] := by
          rw [List.filter_append]
          rw [List.filter_eq_nil_iff.mpr (fun m hm => by rw [hnone m hm]; simp)]
          simp [List.filter, hcarr]
        rw [this]
        rfl

/-- The store produced by the first deduplicated insert of the witness. -/
def dedupStore1 : Storage :=
  ⟨[{ exN 5 none with source := some ("hash:ab") }], []⟩

/-- Closed instance of C9: after inserting a node under hash `ab` into an
empty store, a second insert under the same hash returns the stored id with
`was_new = false` and leaves exactly one node carrying the hash. -/
theorem C9_dedup_idempotent_witness :
    add_node_with_dedup dedupStore1 (exN 6 none) (some ("ab")) =
      some (dedupStore1, 5, false) ∧
    (dedupStore1.nodes.filter (carriesHash ("ab"))).length = 1 := by
  have h := C9_dedup_idempotent ⟨[], []⟩ (exN 5 none) ("ab") dedupStore1 5 true
    (by decide) (by simp) (by with_unfolding_all rfl)
  exact ⟨h.2.2.1 (exN 6 none), h.2.2.2⟩

end Engram
